import Mathlib

/-!
Shallow embedding of `spotify_comparer.py`: the fuzzy reconciliation engine
(`find_missing_tracks` built on rapidfuzz's `token_sort_ratio` scorer and
`process.extractOne` best-match selection), the local inventory builder
(`get_local_tracks`) and the playlist publisher (`create_missing_playlist`),
together with proofs of the specification's claims about them.

Similarity scores are modelled exactly as rationals on the 0-100 scale:
`token_sort_ratio` splits both strings on whitespace, sorts the tokens,
joins them with single spaces and computes the normalized indel ratio
`100 * 2 * lcs / (|a| + |b|)` of the two joined strings (100 when both are
empty), which is the mathematical definition rapidfuzz implements.
-/

namespace SpotifyComparer

/-- The longest-common-subsequence recurrence, structurally recursive on a
fuel argument so the kernel can evaluate it; every recursive call shortens
one of the lists, so fuel `|a| + |b|` never runs out. -/
def lcsFuel : Nat → List Char → List Char → Nat
  | 0, _, _ => 0
  | _ + 1, [], _ => 0
  | _ + 1, _ :: _, [] => 0
  | fuel + 1, a :: as, b :: bs =>
    if a = b then 1 + lcsFuel fuel as bs
    else max (lcsFuel fuel (a :: as) bs) (lcsFuel fuel as (b :: bs))

/-- Longest common subsequence length of two character lists; the indel
distance of `a` and `b` is `|a| + |b| - 2 * lcs a b`. -/
def lcs (a b : List Char) : Nat :=
  lcsFuel (a.length + b.length) a b

/-- Normalized indel similarity ratio on the 0-100 scale between two
character sequences, as computed by rapidfuzz's `fuzz.ratio`:
`100 * 2*lcs/(|a|+|b|)`, and 100 when both are empty. -/
def indel_ratio (a b : List Char) : ℚ :=
  if a.length + b.length = 0 then 100
  else 100 * (2 * (lcs a b : ℚ)) / (a.length + b.length)

/-- Whitespace tokenization as performed by Python's `str.split()` /
rapidfuzz: split on whitespace runs, dropping empty tokens. `cur` holds the
characters of the token being scanned, most recent first. -/
def wsTokensAux (cur : List Char) : List Char → List (List Char)
  | [] => if cur.isEmpty then [] else [cur.reverse]
  | c :: cs =>
    if c.isWhitespace then
      if cur.isEmpty then wsTokensAux [] cs else cur.reverse :: wsTokensAux [] cs
    else wsTokensAux (c :: cur) cs

/-- The whitespace tokens of a character sequence, in order. -/
def wsTokens (s : List Char) : List (List Char) :=
  wsTokensAux [] s

/-- Lexicographic comparison of tokens by code point, as Python's `sorted`
compares strings. -/
def charListLe : List Char → List Char → Bool
  | [], _ => true
  | _ :: _, [] => false
  | a :: as, b :: bs =>
    if a = b then charListLe as bs else decide (a.toNat < b.toNat)

/-- Insert a token into an already sorted token list. -/
def insertTok (t : List Char) : List (List Char) → List (List Char)
  | [] => [t]
  | u :: us => if charListLe t u then t :: u :: us else u :: insertTok t us

/-- Sort a token list lexicographically (insertion sort; the claims are
insensitive to which sorting algorithm produces the order). -/
def sortToks : List (List Char) → List (List Char)
  | [] => []
  | t :: ts => insertTok t (sortToks ts)

/-- The sorted-token preprocessing of `fuzz.token_sort_ratio`: tokenize on
whitespace, sort the tokens, rejoin with single spaces. -/
def sortedJoin (s : String) : List Char :=
  List.intercalate [' '] (sortToks (wsTokens s.data))

/-- rapidfuzz `fuzz.token_sort_ratio`: indel ratio of the sorted-token
normalizations of the two strings. -/
def token_sort_ratio (a b : String) : ℚ :=
  indel_ratio (sortedJoin a) (sortedJoin b)

/-- Loop of rapidfuzz `process.extractOne` after the first choice seeded
the running best: a later choice replaces the best exactly when its score
is strictly greater, so ties keep the earliest choice. -/
def extractOneAux (query : String) (best : String × ℚ) : List String → String × ℚ
  | [] => best
  | c :: cs =>
    extractOneAux query
      (if token_sort_ratio query c > best.2 then (c, token_sort_ratio query c) else best) cs

/-- rapidfuzz `process.extractOne query choices scorer=fuzz.token_sort_ratio`:
`none` on an empty choice list, otherwise the first choice attaining the
maximum score, paired with that score. -/
def extractOne (query : String) : List String → Option (String × ℚ)
  | [] => none
  | c :: cs => some (extractOneAux query (c, token_sort_ratio query c) cs)

/-- The per-song test of `find_missing_tracks`'s loop body:
`not match or match[1] < threshold`. -/
def isMissing (threshold : ℚ) (local_tracks : List String) (sp_song : String) : Bool :=
  match extractOne sp_song local_tracks with
  | none => true
  | some m => m.2 < threshold

/-- `find_missing_tracks(spotify_tracks, local_tracks, threshold=80)`: keep,
in playlist order, every Spotify track whose best local match is absent or
scores strictly below the threshold. -/
def find_missing_tracks (spotify_tracks local_tracks : List String)
    (threshold : ℚ) : List String :=
  spotify_tracks.filter (isMissing threshold local_tracks)

/-! ### Facts about the scorer -/

theorem lcsFuel_self : ∀ (fuel : Nat) (l : List Char), l.length ≤ fuel →
    lcsFuel fuel l l = l.length
  | fuel, [], _ => by cases fuel <;> simp [lcsFuel]
  | fuel + 1, a :: as, h => by
    have has : as.length ≤ fuel := by
      simpa using Nat.le_of_succ_le_succ h
    simp [lcsFuel, lcsFuel_self fuel as has, Nat.add_comm]

theorem lcs_self (l : List Char) : lcs l l = l.length :=
  lcsFuel_self _ l (by omega)

theorem indel_ratio_self (a : List Char) : indel_ratio a a = 100 := by
  unfold indel_ratio
  rcases Nat.eq_zero_or_pos a.length with h | h
  · simp [h]
  · have hn : ((a.length : ℚ) + a.length) ≠ 0 := by
      have : (a.length : ℚ) ≠ 0 := Nat.cast_ne_zero.mpr (Nat.pos_iff_ne_zero.mp h)
      intro hc
      exact this (by linarith [Nat.cast_nonneg (α := ℚ) a.length])
    rw [if_neg (by omega), lcs_self,
      show (100 : ℚ) * (2 * (a.length : ℚ)) =
        100 * ((a.length : ℚ) + a.length) by ring,
      mul_div_assoc, div_self hn, mul_one]

theorem indel_ratio_nonneg (a b : List Char) : 0 ≤ indel_ratio a b := by
  unfold indel_ratio
  split
  · norm_num
  · positivity

theorem token_sort_ratio_self (s : String) : token_sort_ratio s s = 100 :=
  indel_ratio_self _

theorem token_sort_ratio_nonneg (a b : String) : 0 ≤ token_sort_ratio a b :=
  indel_ratio_nonneg _ _

/-! ### Characterization of `extractOne` -/

theorem extractOneAux_le (q : String) :
    ∀ (cs : List String) (best : String × ℚ), best.2 ≤ (extractOneAux q best cs).2
  | [], _ => le_rfl
  | c :: cs, best => by
    rw [extractOneAux]
    by_cases h : token_sort_ratio q c > best.2
    · rw [if_pos h]
      exact le_trans h.le (extractOneAux_le q cs _)
    · rw [if_neg h]
      exact extractOneAux_le q cs best

theorem extractOneAux_ub (q : String) :
    ∀ (cs : List String) (best : String × ℚ) (c : String), c ∈ cs →
      token_sort_ratio q c ≤ (extractOneAux q best cs).2
  | [], _, _, hc => absurd hc (List.not_mem_nil _)
  | c :: cs, best, x, hx => by
    rw [extractOneAux]
    rcases List.mem_cons.mp hx with rfl | hx
    · by_cases h : token_sort_ratio q x > best.2
      · rw [if_pos h]
        exact extractOneAux_le q cs _
      · rw [if_neg h]
        exact le_trans (not_lt.mp h) (extractOneAux_le q cs best)
    · by_cases h : token_sort_ratio q c > best.2
      · rw [if_pos h]
        exact extractOneAux_ub q cs _ x hx
      · rw [if_neg h]
        exact extractOneAux_ub q cs best x hx

theorem extractOneAux_mem (q : String) :
    ∀ (cs : List String) (best : String × ℚ),
      extractOneAux q best cs = best ∨
        ∃ c ∈ cs, extractOneAux q best cs = (c, token_sort_ratio q c)
  | [], _ => Or.inl rfl
  | c :: cs, best => by
    rw [extractOneAux]
    by_cases h : token_sort_ratio q c > best.2
    · rw [if_pos h]
      rcases extractOneAux_mem q cs (c, token_sort_ratio q c) with h1 | ⟨x, hx, h2⟩
      · exact Or.inr ⟨c, List.mem_cons_self c cs, h1⟩
      · exact Or.inr ⟨x, List.mem_cons_of_mem c hx, h2⟩
    · rw [if_neg h]
      rcases extractOneAux_mem q cs best with h1 | ⟨x, hx, h2⟩
      · exact Or.inl h1
      · exact Or.inr ⟨x, List.mem_cons_of_mem c hx, h2⟩

/-- On a non-empty choice list, `extractOne` returns a choice of the list,
paired with its own score, and that score bounds every choice's score. -/
theorem extractOne_spec (q c : String) (cs : List String) :
    ∃ p : String × ℚ, extractOne q (c :: cs) = some p ∧ p.1 ∈ c :: cs ∧
      p.2 = token_sort_ratio q p.1 ∧
      ∀ l ∈ c :: cs, token_sort_ratio q l ≤ p.2 := by
  refine ⟨extractOneAux q (c, token_sort_ratio q c) cs, rfl, ?_, ?_, ?_⟩
  · rcases extractOneAux_mem q cs (c, token_sort_ratio q c) with h | ⟨x, hx, h⟩
    · rw [h]
      exact List.mem_cons_self c cs
    · rw [h]
      exact List.mem_cons_of_mem c hx
  · rcases extractOneAux_mem q cs (c, token_sort_ratio q c) with h | ⟨x, hx, h⟩
    · rw [h]
    · rw [h]
  · intro l hl
    rcases List.mem_cons.mp hl with rfl | hl
    · exact extractOneAux_le q cs _
    · exact extractOneAux_ub q cs _ l hl

/-- The loop-body test succeeds exactly when the local inventory is empty or
every local label (equivalently, the best one) scores strictly below the
threshold. -/
theorem isMissing_iff (θ : ℚ) (locals : List String) (r : String) :
    isMissing θ locals r = true ↔
      locals = [] ∨ ∀ l ∈ locals, token_sort_ratio r l < θ := by
  cases locals with
  | nil => simp [isMissing, extractOne]
  | cons c cs =>
    obtain ⟨p, hp, hmem, hscore, hub⟩ := extractOne_spec r c cs
    rw [isMissing, hp]
    simp only [decide_eq_true_eq]
    constructor
    · intro h
      right
      intro l hl
      exact lt_of_le_of_lt (hub l hl) h
    · rintro (h | h)
      · exact absurd h (List.cons_ne_nil c cs)
      · rw [hscore]
        exact h p.1 hmem

/-! ### Local inventory builder (`get_local_tracks`) -/

/-- The `artist`/`title` fields a successful `EasyID3` read yields; `none`
in a field models the tag key being absent. -/
structure TagData where
  artist : Option String
  title : Option String

/-- One file seen by the directory walk: its filename and the outcome of tag
extraction (`none` models `EasyID3` raising, i.e. an unreadable tag). -/
structure FileEntry where
  name : String
  tag : Option TagData

/-- `file.lower().endswith((".mp3", ".flac", ".wav"))`. -/
def has_audio_ext (name : String) : Bool :=
  let lower := name.data.map Char.toLower
  ".mp3".data.isSuffixOf lower || ".flac".data.isSuffixOf lower ||
    ".wav".data.isSuffixOf lower

/-- The label the loop body of `get_local_tracks` appends for one file:
`f"{artist} - {title}"` with `artist` defaulting to `"Unknown"` and `title`
to the filename, falling back to the bare filename when the tag read
raised. -/
def label_of_file (f : FileEntry) : String :=
  match f.tag with
  | some meta => (meta.artist.getD "Unknown") ++ " - " ++ (meta.title.getD f.name)
  | none => f.name

/-- `get_local_tracks`: one label per file with a recognized audio
extension, in walk order. -/
def get_local_tracks : List FileEntry → List String
  | [] => []
  | f :: fs =>
    if has_audio_ext f.name then label_of_file f :: get_local_tracks fs
    else get_local_tracks fs

theorem mem_get_local_tracks :
    ∀ (files : List FileEntry) (f : FileEntry), f ∈ files →
      has_audio_ext f.name = true → label_of_file f ∈ get_local_tracks files
  | [], _, hmem, _ => absurd hmem (List.not_mem_nil _)
  | g :: fs, f, hmem, hext => by
    rw [get_local_tracks]
    rcases List.mem_cons.mp hmem with rfl | hmem
    · rw [if_pos hext]
      exact List.mem_cons_self _ _
    · by_cases hg : has_audio_ext g.name
      · rw [if_pos hg]
        exact List.mem_cons_of_mem _ (mem_get_local_tracks fs f hmem hext)
      · rw [if_neg hg]
        exact mem_get_local_tracks fs f hmem hext

/-! ### Publisher (`create_missing_playlist`) -/

/-- The remote API calls `create_missing_playlist` can issue. -/
inductive ApiCall where
  | me : ApiCall
  | user_playlist_create (user_id name : String) (pub : Bool) : ApiCall
  | search (q : String) : ApiCall
  | playlist_add_items (playlist_id : String) (uris : List String) : ApiCall
deriving DecidableEq

/-- The remote environment the publisher runs against: the authenticated
user's id, the id the create call returns, and the top-1 track URI each
search query resolves to (`none` when the search returns no item). -/
structure SpotifyEnv where
  user_id : String
  new_playlist_id : String
  search_uri : String → Option String

/-- What one run of `create_missing_playlist` produced: the created
playlist's id (if any), the sequence of API calls issued, and whether the
"No URIs found" warning was logged. -/
structure PublishResult where
  playlist : Option String
  calls : List ApiCall
  warned : Bool
deriving DecidableEq

/-- `create_missing_playlist(missing_tracks)`: return `None` issuing no
call on an empty missing set; otherwise create the "Missing Songs"
playlist, search once per missing label collecting the top-1 URIs, and add
the collected URIs in one batch (warning instead when none resolved). -/
def create_missing_playlist (env : SpotifyEnv) (missing_tracks : List String) :
    PublishResult :=
  if missing_tracks.isEmpty then
    { playlist := none, calls := [], warned := false }
  else
    let uris := missing_tracks.filterMap env.search_uri
    { playlist := some env.new_playlist_id
      calls :=
        [ApiCall.me, ApiCall.user_playlist_create env.user_id "Missing Songs" false] ++
          missing_tracks.map ApiCall.search ++
          (if uris.isEmpty then [] else [ApiCall.playlist_add_items env.new_playlist_id uris])
      warned := uris.isEmpty }

/-! ### The reconciliation loop as a state transformer -/

/-- The two input collections of `find_missing_tracks`, threaded through
the loop as mutable Python lists would be. -/
structure ReconState where
  spotify_tracks : List String
  local_tracks : List String
deriving DecidableEq

/-- The `for sp_song in spotify_tracks` loop of `find_missing_tracks`,
carrying the (potentially mutable) input state alongside the `missing`
accumulator. -/
def reconLoop (θ : ℚ) (st : ReconState) :
    List String → List String → ReconState × List String
  | [], missing => (st, missing)
  | sp_song :: rest, missing =>
    reconLoop θ st rest
      (if isMissing θ st.local_tracks sp_song then missing ++ [sp_song] else missing)

/-- Running `find_missing_tracks` on a state: loop over the remote list
starting from `missing = []`, returning the final state and the missing
list. -/
def find_missing_tracks_run (st : ReconState) (θ : ℚ) : ReconState × List String :=
  reconLoop θ st st.spotify_tracks []

theorem reconLoop_spec (θ : ℚ) (st : ReconState) :
    ∀ (pending missing : List String),
      reconLoop θ st pending missing =
        (st, missing ++ pending.filter (isMissing θ st.local_tracks))
  | [], missing => by simp [reconLoop]
  | sp :: rest, missing => by
    rw [reconLoop]
    cases h : isMissing θ st.local_tracks sp
    · rw [if_neg (by simp [h]), reconLoop_spec θ st rest missing]
      simp [List.filter_cons, h]
    · rw [if_pos (by simp [h]), reconLoop_spec θ st rest (missing ++ [sp])]
      simp [List.filter_cons, h]

/-! ### The claims -/

/-- Claim C1: a remote label is in the Missing Set exactly when the local
inventory is empty or every local label (equivalently, the best-scoring
one) has token-sort-ratio strictly below the threshold; in particular one
local label scoring at or above the threshold excludes it. -/
theorem claim_missing_classification (remote locals : List String) (θ : ℚ)
    (r : String) (hr : r ∈ remote) :
    r ∈ find_missing_tracks remote locals θ ↔
      locals = [] ∨ ∀ l ∈ locals, token_sort_ratio r l < θ := by
  rw [find_missing_tracks, List.mem_filter, ← isMissing_iff θ locals r]
  exact ⟨fun h => h.2, fun h => ⟨hr, h⟩⟩

theorem claim_missing_classification_witness :
    ("a" ∈ find_missing_tracks ["a"] [] 80 ↔
      ([] : List String) = [] ∨ ∀ l ∈ ([] : List String), token_sort_ratio "a" l < 80) :=
  claim_missing_classification ["a"] [] 80 "a" (List.mem_cons_self _ _)

/-- Claim C2: against an empty local inventory, the Missing Set is the
entire remote inventory. -/
theorem claim_empty_local_all_missing (remote : List String) (θ : ℚ) :
    find_missing_tracks remote [] θ = remote := by
  rw [find_missing_tracks, List.filter_eq_self]
  intro a _
  rfl

/-- Claim C3: the Missing Set is an order-preserving subsequence of the
remote inventory, and a missing label keeps its full remote multiplicity
(duplicates are retained). -/
theorem claim_missing_order_preserving (remote locals : List String) (θ : ℚ) :
    (find_missing_tracks remote locals θ).Sublist remote ∧
      ∀ r, isMissing θ locals r = true →
        (find_missing_tracks remote locals θ).count r = remote.count r := by
  refine ⟨List.filter_sublist remote, ?_⟩
  intro r h
  rw [find_missing_tracks]
  exact List.count_filter h

theorem claim_missing_order_preserving_witness :
    (find_missing_tracks ["a", "b", "a"] ["a"] 80).Sublist ["a", "b", "a"] ∧
      (find_missing_tracks ["a", "b", "a"] ["a"] 80).count "b" =
        (["a", "b", "a"] : List String).count "b" :=
  ⟨(claim_missing_order_preserving ["a", "b", "a"] ["a"] 80).1,
    (claim_missing_order_preserving ["a", "b", "a"] ["a"] 80).2 "b"
      (by
        have hsj_b : sortedJoin "b" = ['b'] := by decide
        have hsj_a : sortedJoin "a" = ['a'] := by decide
        have hts : token_sort_ratio "b" "a" = 0 := by
          have hl : lcs ['b'] ['a'] = 0 := by decide
          rw [token_sort_ratio, hsj_b, hsj_a, indel_ratio]
          norm_num [hl]
        simp [isMissing, extractOne, extractOneAux, hts])⟩

/-- Claim C4: two identical strings score exactly 100, and a remote label
equal to some local label is never in the Missing Set for any threshold at
most 100. -/
theorem claim_identical_scores_max (s : String) (remote locals : List String)
    (θ : ℚ) (hθ : θ ≤ 100) (hmem : s ∈ locals) :
    token_sort_ratio s s = 100 ∧ s ∉ find_missing_tracks remote locals θ := by
  refine ⟨token_sort_ratio_self s, ?_⟩
  intro hin
  rw [find_missing_tracks, List.mem_filter, isMissing_iff] at hin
  rcases hin.2 with he | hall
  · rw [he] at hmem
    exact absurd hmem (List.not_mem_nil s)
  · have hs := hall s hmem
    rw [token_sort_ratio_self s] at hs
    linarith

theorem claim_identical_scores_max_witness :
    token_sort_ratio "a" "a" = 100 ∧ "a" ∉ find_missing_tracks ["a"] ["a"] 100 :=
  claim_identical_scores_max "a" ["a"] ["a"] 100 le_rfl (List.mem_cons_self _ _)

/-- Claim C5: with threshold 0 and a non-empty local inventory, the Missing
Set is empty, because every score is at least 0. -/
theorem claim_zero_threshold_empty (remote locals : List String)
    (h : locals ≠ []) : find_missing_tracks remote locals 0 = [] := by
  rw [find_missing_tracks, List.filter_eq_nil_iff]
  intro a _
  rw [isMissing_iff]
  rintro (he | hall)
  · exact h he
  · obtain ⟨l, hl⟩ := List.exists_mem_of_ne_nil locals h
    exact absurd (hall l hl) (not_lt.mpr (token_sort_ratio_nonneg a l))

theorem claim_zero_threshold_empty_witness :
    find_missing_tracks ["a"] ["b"] 0 = [] :=
  claim_zero_threshold_empty ["a"] ["b"] (by simp)

/-- Claim C6: on an empty Missing Set the publisher creates no playlist and
issues no API call at all; in particular an empty remote inventory gives an
empty Missing Set and so no playlist creation. -/
theorem claim_publisher_noop (env : SpotifyEnv) (missing : List String)
    (h : missing = []) :
    (create_missing_playlist env missing).playlist = none ∧
      (create_missing_playlist env missing).calls = [] ∧
      ∀ locals θ, find_missing_tracks [] locals θ = [] ∧
        (create_missing_playlist env (find_missing_tracks [] locals θ)).playlist = none ∧
        (create_missing_playlist env (find_missing_tracks [] locals θ)).calls = [] := by
  subst h
  exact ⟨rfl, rfl, fun locals θ => ⟨rfl, rfl, rfl⟩⟩

theorem claim_publisher_noop_witness :
    (create_missing_playlist ⟨"u", "p", fun _ => none⟩ []).playlist = none ∧
      (create_missing_playlist ⟨"u", "p", fun _ => none⟩ []).calls = [] ∧
      ∀ locals θ, find_missing_tracks [] locals θ = [] ∧
        (create_missing_playlist ⟨"u", "p", fun _ => none⟩
          (find_missing_tracks [] locals θ)).playlist = none ∧
        (create_missing_playlist ⟨"u", "p", fun _ => none⟩
          (find_missing_tracks [] locals θ)).calls = [] :=
  claim_publisher_noop ⟨"u", "p", fun _ => none⟩ [] rfl

/-- Claim C7: on a non-empty Missing Set all of whose searches resolve no
URI, the publisher still creates the playlist, adds no items (no add call
is issued), and reports the warning instead of failing. -/
theorem claim_publisher_unresolved (env : SpotifyEnv) (missing : List String)
    (hne : missing ≠ []) (hnone : ∀ m ∈ missing, env.search_uri m = none) :
    (create_missing_playlist env missing).playlist = some env.new_playlist_id ∧
      (create_missing_playlist env missing).warned = true ∧
      ∀ pid uris,
        ApiCall.playlist_add_items pid uris ∉ (create_missing_playlist env missing).calls := by
  have hiE : missing.isEmpty = false := by
    cases missing
    · exact absurd rfl hne
    · rfl
  have huris : missing.filterMap env.search_uri = [] :=
    List.filterMap_eq_nil_iff.mpr hnone
  refine ⟨?_, ?_, ?_⟩ <;> simp [create_missing_playlist, hiE, huris]

theorem claim_publisher_unresolved_witness :
    (create_missing_playlist ⟨"u", "p", fun _ => none⟩ ["x"]).playlist = some "p" ∧
      (create_missing_playlist ⟨"u", "p", fun _ => none⟩ ["x"]).warned = true ∧
      ∀ pid uris,
        ApiCall.playlist_add_items pid uris ∉
          (create_missing_playlist ⟨"u", "p", fun _ => none⟩ ["x"]).calls :=
  claim_publisher_unresolved ⟨"u", "p", fun _ => none⟩ ["x"] (by simp)
    (fun m _ => rfl)

/-- Claim C8: every produced local label is `"{artist} - {title}"` with
artist defaulting to `"Unknown"` and title to the filename when the field
is absent, and on an unreadable tag the label is the bare filename. -/
theorem claim_local_label_shape (files : List FileEntry) (f : FileEntry)
    (hmem : f ∈ files) (hext : has_audio_ext f.name = true) :
    label_of_file f ∈ get_local_tracks files ∧
      (∀ t, f.tag = some t →
        label_of_file f = (t.artist.getD "Unknown") ++ " - " ++ (t.title.getD f.name)) ∧
      (f.tag = none → label_of_file f = f.name) := by
  refine ⟨mem_get_local_tracks files f hmem hext, ?_, ?_⟩
  · intro t ht
    simp [label_of_file, ht]
  · intro ht
    simp [label_of_file, ht]

theorem claim_local_label_shape_witness :
    label_of_file ⟨"x.mp3", none⟩ ∈ get_local_tracks [⟨"x.mp3", none⟩] ∧
      (∀ t, (⟨"x.mp3", none⟩ : FileEntry).tag = some t →
        label_of_file ⟨"x.mp3", none⟩ =
          (t.artist.getD "Unknown") ++ " - " ++ (t.title.getD "x.mp3")) ∧
      ((⟨"x.mp3", none⟩ : FileEntry).tag = none →
        label_of_file ⟨"x.mp3", none⟩ = "x.mp3") :=
  claim_local_label_shape [⟨"x.mp3", none⟩] ⟨"x.mp3", none⟩
    (List.mem_cons_self _ _) (by decide)

/-- Claim C9: the reconciliation loop leaves its input state unchanged, and
its output is the pure function `find_missing_tracks` of the inputs and the
threshold (so fixed inputs always yield the identical Missing Set). -/
theorem claim_recon_pure (st : ReconState) (θ : ℚ) :
    (find_missing_tracks_run st θ).1 = st ∧
      (find_missing_tracks_run st θ).2 =
        find_missing_tracks st.spotify_tracks st.local_tracks θ := by
  rw [find_missing_tracks_run, reconLoop_spec]
  exact ⟨rfl, by simp [find_missing_tracks]⟩

/-- Claim C10: the Missing Set depends on the local inventory only through
membership: two local lists with the same elements (so, any permutation or
duplication) give the same Missing Set. -/
theorem claim_missing_local_membership (remote L1 L2 : List String) (θ : ℚ)
    (h : ∀ l, l ∈ L1 ↔ l ∈ L2) :
    find_missing_tracks remote L1 θ = find_missing_tracks remote L2 θ := by
  unfold find_missing_tracks
  apply List.filter_congr
  intro r _
  rw [Bool.eq_iff_iff, isMissing_iff, isMissing_iff]
  have hnil : L1 = [] ↔ L2 = [] := by
    rw [List.eq_nil_iff_forall_not_mem, List.eq_nil_iff_forall_not_mem]
    constructor
    · intro hn x hx
      exact hn x ((h x).mpr hx)
    · intro hn x hx
      exact hn x ((h x).mp hx)
  constructor
  · rintro (he | hall)
    · exact Or.inl (hnil.mp he)
    · exact Or.inr fun l hl => hall l ((h l).mpr hl)
  · rintro (he | hall)
    · exact Or.inl (hnil.mpr he)
    · exact Or.inr fun l hl => hall l ((h l).mp hl)

theorem claim_missing_local_membership_witness :
    find_missing_tracks ["a"] ["a", "b"] 80 =
      find_missing_tracks ["a"] ["b", "a", "a"] 80 :=
  claim_missing_local_membership ["a"] ["a", "b"] ["b", "a", "a"] 80
    (by intro l; simp; tauto)

end SpotifyComparer
